import Mathlib

/-!
Verification development for the USB topology / HMD-location core of
WatchmanPairingAssistant (source/usb_util_windows.py).

The Python source is shallowly embedded: the nested port-keyed dictionaries of
the tree builder become the mutual inductive types DTree / DForest (association
lists keyed by Int, preserving insertion order like Python dicts); the
UsbTreeItem objects become the mutual inductive Item / ItemForest; Python
exceptions (AttributeError from attribute access on None, IndexError from
indexing an empty tuple) become an Except layer with an explicit Err type.
Parent back-references are represented by passing the explicit ancestor chain
(nearest ancestor first) to the search functions, exactly mirroring the chain
of .parent links set up at construction.

A device descriptor string that the underlying record cannot provide (either
reported as None or failing to read, both swallowed by the bare except in
UsbTreeItem.__init__) is modelled as Option.none.
-/

/-- Error values standing for the Python exceptions the core can raise. -/
inductive Err where
  | attributeError
  | indexError
deriving DecidableEq, Repr

/-- A Device Record: one usb.core.Device snapshot as consumed by the core. -/
structure Device where
  address : Nat
  bus : Nat
  portNumber : Int
  portNumbers : Option (List Int)
  idVendor : Nat
  idProduct : Nat
  bDeviceClass : Nat
  product : Option String
  manufacturer : Option String
  serialNumber : Option String
deriving DecidableEq, Repr

/-- The resolved full port path of a record: its portNumbers when present,
otherwise the single-element path of its own portNumber
(mirrors the ports-is-None branch of create_device_tree). -/
def resolvedPath (d : Device) : List Int :=
  match d.portNumbers with
  | none => [d.portNumber]
  | some l => l

mutual
/-- One slot of the nested dictionary built by create_device_tree:
an optional device and a child mapping. -/
inductive DTree where
  | mk (device : Option Device) (children : DForest)

/-- A port-number-keyed mapping in insertion order (a Python dict). -/
inductive DForest where
  | nil
  | cons (port : Int) (tree : DTree) (rest : DForest)
end


def DTree.deviceOf : DTree → Option Device
  | .mk d _ => d

def DTree.childrenOf : DTree → DForest
  | .mk _ c => c

/-- Set the device slot at key p: overwrite if the key exists (children kept),
else append a fresh slot at the end of the dict. Mirrors the last-port step of
create_device_tree. -/
def setDevice (f : DForest) (p : Int) (d : Device) : DForest :=
  match f with
  | .nil => .cons p (.mk (some d) .nil) .nil
  | .cons k t r =>
      if k = p then .cons k (.mk (some d) t.childrenOf) r
      else .cons k t (setDevice r p d)

/-- One stage of the intermediate-port walk: find (or create, device-less and
at the end of the dict) the slot at key p and apply the continuation to its
children mapping. -/
def insertStep (p : Int) (g : DForest → DForest) : DForest → DForest
  | .nil => .cons p (.mk none (g .nil)) .nil
  | .cons k t r =>
      if k = p then .cons k (.mk t.deviceOf (g t.childrenOf)) r
      else .cons k t (insertStep p g r)

/-- Walk the intermediate ports (path), creating device-less placeholder slots
for absent keys, then set the device at the last port lp.
Mirrors the loop over ports[:-1] followed by the last-port step. -/
def insertPath (f : DForest) (path : List Int) (lp : Int) (d : Device) : DForest :=
  match path with
  | [] => setDevice f lp d
  | p :: rest => insertStep p (fun c => insertPath c rest lp d) f

/-- Split a list into its leading part and last element
(ports[:-1] and ports[-1]); none on the empty list, where Python raises. -/
def splitLast : List Int → Option (List Int × Int)
  | [] => none
  | [x] => some ([], x)
  | x :: y :: r =>
      match splitLast (y :: r) with
      | none => none
      | some (i, l) => some (x :: i, l)

/-- Insert one device record into the nested mapping. An absent port path
falls back to the record's own port number at root level; an empty port path
raises (ports[-1] on an empty tuple is an IndexError). -/
def insertDevice (f : DForest) (d : Device) : Except Err DForest :=
  match d.portNumbers with
  | none => .ok (setDevice f d.portNumber d)
  | some ports =>
      match splitLast ports with
      | none => .error .indexError
      | some (i, l) => .ok (insertPath f i l d)

/-- Fold of insertDevice over the record list, aborting at the first error.
Mirrors the device loop of create_device_tree. -/
def createFrom (f : DForest) : List Device → Except Err DForest
  | [] => .ok f
  | d :: rest =>
      match insertDevice f d with
      | .error e => .error e
      | .ok f1 => createFrom f1 rest

/-- create_device_tree: build the nested mapping from the flat record list. -/
def createDeviceTree (devs : List Device) : Except Err DForest :=
  createFrom .nil devs

/-- Insert a keyed tree into an already key-sorted forest, keeping ascending
key order (the key set of a dict is duplicate-free, so stability is moot). -/
def insertSorted (k : Int) (t : DTree) : DForest → DForest
  | .nil => .cons k t .nil
  | .cons k2 t2 r =>
      if k2 ≤ k then .cons k2 t2 (insertSorted k t r)
      else .cons k t (.cons k2 t2 r)

mutual
/-- sort_device_tree on one slot: recursively sort its children. -/
def sortTree : DTree → DTree
  | .mk d c => .mk d (sortForest c)

/-- sort_device_tree: rebuild every level in ascending integer key order. -/
def sortForest : DForest → DForest
  | .nil => .nil
  | .cons k t r => insertSorted k (sortTree t) (sortForest r)
end


/-- pp_class: the display label cached at node construction. -/
def ppClass (d : Device) : String :=
  if d.bDeviceClass = 9 then "USB-Hub" else "Device"

/-- The fields UsbTreeItem.__init__ stores for one node. -/
structure ItemData where
  address : Nat
  bus : Nat
  port : Int
  product : String
  vendor : String
  serial : String
  ports : Option (List Int)
  device : Device
  classPretty : String
  level : Nat
deriving DecidableEq, Repr

mutual
/-- A constructed UsbTreeItem. -/
inductive Item where
  | mk (data : ItemData) (children : ItemForest)

/-- The children dict of a UsbTreeItem, keyed by port, in dict order. -/
inductive ItemForest where
  | nil
  | cons (port : Int) (item : Item) (rest : ItemForest)
end


def Item.dataOf : Item → ItemData
  | .mk d _ => d

def Item.childrenF : Item → ItemForest
  | .mk _ c => c

def Item.deviceOf (it : Item) : Device := it.dataOf.device

def Item.productS (it : Item) : String := it.dataOf.product

def Item.serialS (it : Item) : String := it.dataOf.serial

/-- The field normalization performed by UsbTreeItem.__init__: missing
product/manufacturer become the empty string, a missing serial number becomes
the literal "No Serial Number"; available values are stored unchanged. -/
def mkData (d : Device) (lvl : Nat) : ItemData :=
  { address := d.address
    bus := d.bus
    port := d.portNumber
    product := d.product.getD ""
    vendor := d.manufacturer.getD ""
    serial := d.serialNumber.getD "No Serial Number"
    ports := d.portNumbers
    device := d
    classPretty := ppClass d
    level := lvl }

/-- Construct the items of one children dict in key order, one UsbTreeItem
constructor call per entry: for each entry the children dict comprehension of
UsbTreeItem.__init__ runs first (so a deeper failure surfaces first), then the
device attributes are read, and reading .address of None raises
AttributeError; later siblings are only constructed after earlier ones. -/
def mkForest (f : DForest) (lvl : Nat) : Except Err ItemForest :=
  match f with
  | .nil => .ok .nil
  | .cons k (.mk dv ch) r =>
      match mkForest ch (lvl + 1) with
      | .error e => .error e
      | .ok cs =>
          match dv with
          | none => .error .attributeError
          | some d =>
              match mkForest r lvl with
              | .error e => .error e
              | .ok rest => .ok (.cons k (.mk (mkData d lvl) cs) rest)

/-- UsbTreeItem.__init__ for a single slot: build the children first, then
read the device attributes (AttributeError on a device-less placeholder). -/
def mkItem (dev : Option Device) (c : DForest) (lvl : Nat) : Except Err Item :=
  match mkForest c (lvl + 1) with
  | .error e => .error e
  | .ok cs =>
      match dev with
      | none => .error .attributeError
      | some d => .ok (.mk (mkData d lvl) cs)

/-- The whole Topology Builder: create_device_tree, sort_device_tree, then
list(convert_tree(...)) with parent=None and level=0 at the roots. -/
def buildForest (devs : List Device) : Except Err ItemForest :=
  match createDeviceTree devs with
  | .error e => .error e
  | .ok t => mkForest (sortForest t) 0

/-- is_hub: the device class equals usb.CLASS_HUB (9). -/
def isHub (it : Item) : Bool := it.deviceOf.bDeviceClass == 9

/-- is_vive_dongle / is_dongle: vendor 0x28DE and product in the whitelist. -/
def isDongle (it : Item) : Bool :=
  it.deviceOf.idVendor == 0x28DE &&
    (it.deviceOf.idProduct == 0x2101 || it.deviceOf.idProduct == 0x2102)

/-- get_hmd_root_depth: the signature-to-ascent-depth table, first row first. -/
def getHmdRootDepth (it : Item) : Option Nat :=
  if it.deviceOf.idVendor = 0x0BB4 ∧ it.deviceOf.idProduct = 0x0309 then some 3
  else if it.productS = "Beyond" ∨ it.productS = "Index HMD" then some 2
  else none

/-- An HMD Finding: the ascended-to node (None when the ascent stepped just
past a root) and the node whose signature matched. -/
structure ViveHMD where
  device : Option Item
  idDevice : Item

/-- The ascent loop of find_hmd: d times, replace the current node by its
parent; the parent of a root is None, and .parent on None raises. The ancestor
chain anc lists the real ancestors of the start node, nearest first. -/
def ascend : Option Item → List Item → Nat → Except Err (Option Item)
  | cur, _, 0 => .ok cur
  | none, _, _ + 1 => .error .attributeError
  | some _, a :: rest, n + 1 => ascend (some a) rest n
  | some _, [], n + 1 => ascend none [] n

mutual
/-- find_hmd on one node: search the children first and return any finding
from them; otherwise test this node's signature and ascend. -/
def findHmd (anc : List Item) : Item → Except Err (Option ViveHMD)
  | .mk data cs =>
      match findHmdForest (Item.mk data cs :: anc) cs with
      | .error e => .error e
      | .ok (some h) => .ok (some h)
      | .ok none =>
          match getHmdRootDepth (Item.mk data cs) with
          | none => .ok none
          | some d =>
              match ascend (some (Item.mk data cs)) anc d with
              | .error e => .error e
              | .ok dev => .ok (some ⟨dev, Item.mk data cs⟩)

/-- The children loop of find_hmd: first non-None child result wins. -/
def findHmdForest (anc : List Item) : ItemForest → Except Err (Option ViveHMD)
  | .nil => .ok none
  | .cons _ c r =>
      match findHmd anc c with
      | .error e => .error e
      | .ok (some h) => .ok (some h)
      | .ok none => findHmdForest anc r
end


/-- The root loop of the module-level find_hmd: run the search on each root
(parent None) of the converted forest and collect the findings in order. -/
def scanRoots : ItemForest → Except Err (List ViveHMD)
  | .nil => .ok []
  | .cons _ it r =>
      match findHmd [] it with
      | .error e => .error e
      | .ok h =>
          match scanRoots r with
          | .error e => .error e
          | .ok rest => .ok (match h with | some x => x :: rest | none => rest)

mutual
/-- children_flat_list on one item: flatten its children dict. -/
def flatItem : Item → List Item
  | .mk _ cs => flatForest cs

/-- children_flat_list body: yield each child, and the child's own flattened
list only when that child is a hub. -/
def flatForest : ItemForest → List Item
  | .nil => []
  | .cons _ c r => c :: ((if isHub c then flatItem c else []) ++ flatForest r)
end


/-- ViveHMD.get_attached_dongles: the dongle-signature members of the
ancestor's flattened subtree; .children_flat_list on None raises. -/
def getAttachedDongles (h : ViveHMD) : Except Err (List Item) :=
  match h.device with
  | none => .error .attributeError
  | some a => .ok ((flatItem a).filter isDongle)

/-- ViveHMD.get_dongle_serials: the serial field of each attached dongle,
in the same order. -/
def getDongleSerials (h : ViveHMD) : Except Err (List String) :=
  match getAttachedDongles h with
  | .error e => .error e
  | .ok ds => .ok (ds.map Item.serialS)

/-! ### Analysis layer: key lookup, path lookup, slot contents, counting -/

/-- First entry with the given key, like a Python dict lookup. -/
def lookupKey (f : DForest) (a : Int) : Option DTree :=
  match f with
  | .nil => none
  | .cons k t r => if k = a then some t else lookupKey r a

/-- The children of the entry at key a (empty forest when absent). -/
def childAt (f : DForest) (a : Int) : DForest :=
  match lookupKey f a with
  | none => .nil
  | some t => t.childrenOf

/-- Navigate a nonempty port path through the nested mapping. -/
def lookupPath (f : DForest) : List Int → Option DTree
  | [] => none
  | [p] => lookupKey f p
  | p :: q :: rest =>
      match lookupKey f p with
      | none => none
      | some t => lookupPath t.childrenOf (q :: rest)

/-- The device slot at a path: none when the node is absent or device-less. -/
def deviceAt (f : DForest) (q : List Int) : Option Device :=
  match lookupPath f q with
  | none => none
  | some t => t.deviceOf

/-- Key membership at the top level of a mapping. -/
def keyMem (a : Int) : DForest → Bool
  | .nil => false
  | .cons k _ r => (a == k) || keyMem a r

mutual
/-- All key sets of a slot's subtree are duplicate-free. -/
def dTreeUniq : DTree → Bool
  | .mk _ c => dForestUniq c

/-- All key sets of a mapping are duplicate-free, at every level. -/
def dForestUniq : DForest → Bool
  | .nil => true
  | .cons k t r => !(keyMem k r) && dTreeUniq t && dForestUniq r
end


mutual
/-- Number of slots of a subtree holding the given device. -/
def countT (t : DTree) (d : Device) : Nat :=
  match t with
  | .mk dev c => (if dev = some d then 1 else 0) + countF c d

/-- Number of slots of a mapping holding the given device. -/
def countF (f : DForest) (d : Device) : Nat :=
  match f with
  | .nil => 0
  | .cons _ t r => countT t d + countF r d
end


/-- First item with the given key in a children dict. -/
def lookupKeyI (g : ItemForest) (a : Int) : Option Item :=
  match g with
  | .nil => none
  | .cons k it r => if k = a then some it else lookupKeyI r a

/-- The children of the item at key a (empty when absent). -/
def childAtI (g : ItemForest) (a : Int) : ItemForest :=
  match lookupKeyI g a with
  | none => .nil
  | some it => it.childrenF

/-- Navigate a nonempty port path through a constructed forest. -/
def lookupPathI (g : ItemForest) : List Int → Option Item
  | [] => none
  | [p] => lookupKeyI g p
  | p :: q :: rest =>
      match lookupKeyI g p with
      | none => none
      | some it => lookupPathI it.childrenF (q :: rest)

mutual
/-- Number of nodes of an item's subtree (itself included) wrapping d. -/
def countI (it : Item) (d : Device) : Nat :=
  match it with
  | .mk data c => (if data.device = d then 1 else 0) + countIF c d

/-- Number of nodes of a constructed forest wrapping d. -/
def countIF (g : ItemForest) (d : Device) : Nat :=
  match g with
  | .nil => 0
  | .cons _ it r => countI it d + countIF r d
end


/-- The head key of a forest is strictly above k (true when empty). -/
def headLB (k : Int) : DForest → Bool
  | .nil => true
  | .cons k2 _ _ => decide (k < k2)

mutual
/-- Every level of a slot's subtree is in strictly ascending key order. -/
def dTreeAsc : DTree → Bool
  | .mk _ c => dForestAsc c

/-- Every level of a mapping is in strictly ascending key order. -/
def dForestAsc : DForest → Bool
  | .nil => true
  | .cons k t r => dTreeAsc t && headLB k r && dForestAsc r
end


/-- The head key of a constructed forest is strictly above k. -/
def headLBI (k : Int) : ItemForest → Bool
  | .nil => true
  | .cons k2 _ _ => decide (k < k2)

mutual
/-- Every level under a constructed item is in strictly ascending key order. -/
def itemAsc : Item → Bool
  | .mk _ c => itemForestAsc c

/-- Every level of a constructed forest iterates its children in strictly
ascending numeric port order. -/
def itemForestAsc : ItemForest → Bool
  | .nil => true
  | .cons k it r => itemAsc it && headLBI k r && itemForestAsc r
end


/-- Direct membership in a children dict. -/
def memTop (x : Item) : ItemForest → Prop
  | .nil => False
  | .cons _ it r => x = it ∨ memTop x r

mutual
/-- x occurs in the subtree rooted at an item (the root included). -/
def ItemMemI (x : Item) : Item → Prop
  | .mk d c => x = .mk d c ∨ ItemMemF x c

/-- x occurs somewhere in a constructed forest. -/
def ItemMemF (x : Item) : ItemForest → Prop
  | .nil => False
  | .cons _ it r => ItemMemI x it ∨ ItemMemF x r
end


/-- Reachability by the Peripheral Finder's traversal, defined from the
specification's words: starting at an ancestor node, a direct child is
reachable, and anything reachable from a child is reachable provided that
child is itself a hub (the traversal expands a child's own children only when
that child is a hub). -/
inductive HubReach : Item → Item → Prop where
  | child : ∀ {a x : Item}, memTop x a.childrenF → HubReach a x
  | hub : ∀ {a c x : Item}, memTop c a.childrenF → isHub c = true →
      HubReach c x → HubReach a x

/-- The last record of the list whose resolved path is q, if any. -/
def lastWith : List Device → List Int → Option Device
  | [], _ => none
  | d :: rest, q =>
      match lastWith rest q with
      | some x => some x
      | none => if resolvedPath d = q then some d else none

/-- The device slot directly at key a of one level. -/
def devAtKey (f : DForest) (a : Int) : Option Device :=
  match lookupKey f a with
  | none => none
  | some t => t.deviceOf

/-- The top-level key touched by an insertion along a path. -/
def topKeyOf : List Int → Int → Int
  | [], lp => lp
  | p :: _, _ => p

/-- Every occupied device slot of the mapping sits exactly at its record's
resolved path. -/
def PathOk (f : DForest) : Prop :=
  ∀ (dd : Device) (q : List Int), deviceAt f q = some dd → q = resolvedPath dd

/-- Every record occurs in the mapping exactly when it owns the slot at its
resolved path, and then exactly once. -/
def CountOk (f : DForest) : Prop :=
  ∀ dd : Device,
    countF f dd = if deviceAt f (resolvedPath dd) = some dd then 1 else 0

/-! ### Concrete instances used by witnesses and counterexamples -/

def mkDev (addr : Nat) (pn : Int) (pp : Option (List Int))
    (vid pid cls : Nat) (prod mfr ser : Option String) : Device :=
  { address := addr, bus := 0, portNumber := pn, portNumbers := pp,
    idVendor := vid, idProduct := pid, bDeviceClass := cls,
    product := prod, manufacturer := mfr, serialNumber := ser }

def Item.vendorS (it : Item) : String := it.dataOf.vendor

/-- A record whose path implies an intermediate hub at port 1 that never
gets its own record. -/
def devHubless : Device := mkDev 1 1 (some [1, 1]) 0x1111 0x2222 0 none none none

/-- An HMD-signature record sitting directly at a bus root. -/
def devHmdRoot : Device := mkDev 2 1 none 0x0BB4 0x0309 0 none none none

def forestHmdRoot : ItemForest :=
  match buildForest [devHmdRoot] with
  | .ok g => g
  | .error _ => .nil

def devBeyondLeaf : Device := mkDev 3 1 none 0x1234 0x5678 0 (some "Beyond") none none

def itBeyondLeaf : Item := .mk (mkData devBeyondLeaf 0) .nil

def itPlainHub : Item := .mk (mkData (mkDev 4 1 none 0x1111 0x2222 9 none none none) 0) .nil

def devViveLeaf : Device := mkDev 5 1 none 0x0BB4 0x0309 0 none none none

def itViveLeaf : Item := .mk (mkData devViveLeaf 0) .nil

def itHubA : Item := .mk (mkData (mkDev 6 1 none 0x1111 0x2222 9 none none none) 0) .nil

def itHubB : Item := .mk (mkData (mkDev 7 2 none 0x1111 0x2222 9 none none none) 0) .nil

def itHubC : Item := .mk (mkData (mkDev 8 3 none 0x1111 0x2222 9 none none none) 0) .nil

def devsOrder : List Device :=
  [mkDev 10 2 (some [2]) 1 1 9 none none none,
   mkDev 11 1 (some [1]) 1 1 9 none none none,
   mkDev 12 3 (some [1, 3]) 1 1 0 none none none,
   mkDev 13 1 (some [1, 1]) 1 1 0 none none none]

def forestOrder : ItemForest :=
  match buildForest devsOrder with
  | .ok g => g
  | .error _ => .nil

/-- Two records resolving to the same full path [1]. -/
def devDupA : Device := mkDev 20 1 (some [1]) 1 1 0 none none none

def devDupB : Device := mkDev 21 1 (some [1]) 1 2 0 none none none

def forestDup : ItemForest :=
  match buildForest [devDupA, devDupB] with
  | .ok g => g
  | .error _ => .nil

def devsDistinct : List Device :=
  [mkDev 30 2 (some [2]) 1 1 9 none none none,
   mkDev 31 1 (some [1]) 1 1 9 none none none,
   mkDev 32 3 (some [1, 3]) 1 1 0 none none none]

def forestDistinct : ItemForest :=
  match buildForest devsDistinct with
  | .ok g => g
  | .error _ => .nil

def itBeyondParent : Item :=
  .mk (mkData (mkDev 40 2 none 0x1234 0x5678 0 (some "Beyond") none none) 0)
    (.cons 5 itBeyondLeaf .nil)

def itDongle1 : Item :=
  .mk (mkData (mkDev 50 1 none 0x28DE 0x2101 0 none none (some "LHR-AAA")) 1) .nil

def itDongle2 : Item :=
  .mk (mkData (mkDev 51 1 none 0x28DE 0x2102 0 none none (some "LHR-BBB")) 2) .nil

def itHiddenDongle : Item :=
  .mk (mkData (mkDev 52 1 none 0x28DE 0x2101 0 none none (some "LHR-CCC")) 2) .nil

def itSubHub : Item :=
  .mk (mkData (mkDev 53 2 none 0x1111 0x2222 9 none none none) 1)
    (.cons 1 itDongle2 .nil)

def itNonHub : Item :=
  .mk (mkData (mkDev 54 3 none 0x1111 0x2222 0 none none none) 1)
    (.cons 1 itHiddenDongle .nil)

def itAncestor : Item :=
  .mk (mkData (mkDev 55 1 none 0x1111 0x2222 9 none none none) 0)
    (.cons 1 itDongle1 (.cons 2 itSubHub (.cons 3 itNonHub .nil)))

def hmdFinding : ViveHMD := ⟨some itAncestor, itViveLeaf⟩

def donglesFound : List Item :=
  match getAttachedDongles hmdFinding with
  | .ok l => l
  | .error _ => []

def devEmptyPath : Device := mkDev 60 1 (some []) 1 1 0 none none none

def devAbsentPath : Device := mkDev 61 7 none 1 1 0 none none none

def devPartial : Device := mkDev 62 1 none 1 1 0 none (some "HTC") none

def itPartial : Item :=
  match mkItem (some devPartial) .nil 0 with
  | .ok it => it
  | .error _ => itHubA

theorem insertPath_nil_path (f : DForest) (lp : Int) (d : Device) :
    insertPath f [] lp d = setDevice f lp d := rfl

theorem insertPath_cons_nil (p : Int) (rest : List Int) (lp : Int) (d : Device) :
    insertPath .nil (p :: rest) lp d =
      .cons p (.mk none (insertPath .nil rest lp d)) .nil := rfl

theorem insertPath_cons_cons (k : Int) (t : DTree) (r : DForest) (p : Int)
    (rest : List Int) (lp : Int) (d : Device) :
    insertPath (.cons k t r) (p :: rest) lp d =
      if k = p then .cons k (.mk t.deviceOf (insertPath t.childrenOf rest lp d)) r
      else .cons k t (insertPath r (p :: rest) lp d) := by
  by_cases h : k = p <;> simp [insertPath, insertStep, h]

/-! ### Basic equation lemmas -/

@[simp] theorem DTree.deviceOf_mk (d : Option Device) (c : DForest) :
    (DTree.mk d c).deviceOf = d := rfl

@[simp] theorem DTree.childrenOf_mk (d : Option Device) (c : DForest) :
    (DTree.mk d c).childrenOf = c := rfl

@[simp] theorem Item.dataOf_mk (d : ItemData) (c : ItemForest) :
    (Item.mk d c).dataOf = d := rfl

@[simp] theorem Item.childrenF_mk (d : ItemData) (c : ItemForest) :
    (Item.mk d c).childrenF = c := rfl

@[simp] theorem lookupPath_nilF : ∀ q, lookupPath .nil q = none
  | [] => rfl
  | [_] => rfl
  | _ :: _ :: _ => rfl

@[simp] theorem lookupPathI_nilF : ∀ q, lookupPathI .nil q = none
  | [] => rfl
  | [_] => rfl
  | _ :: _ :: _ => rfl

theorem lookupPath_cons_cons (f : DForest) (a b : Int) (rest : List Int) :
    lookupPath f (a :: b :: rest) = lookupPath (childAt f a) (b :: rest) := by
  show (match lookupKey f a with
        | none => none
        | some t => lookupPath t.childrenOf (b :: rest)) = _
  unfold childAt
  cases lookupKey f a with
  | none => simp [lookupPath_nilF]
  | some t => rfl

theorem lookupPathI_cons_cons (g : ItemForest) (a b : Int) (rest : List Int) :
    lookupPathI g (a :: b :: rest) = lookupPathI (childAtI g a) (b :: rest) := by
  show (match lookupKeyI g a with
        | none => none
        | some it => lookupPathI it.childrenF (b :: rest)) = _
  unfold childAtI
  cases lookupKeyI g a with
  | none => simp [lookupPathI_nilF]
  | some it => rfl

theorem deviceAt_single (f : DForest) (a : Int) :
    deviceAt f [a] = (match lookupKey f a with | none => none | some t => t.deviceOf) := rfl

theorem deviceAt_cons_cons (f : DForest) (a b : Int) (rest : List Int) :
    deviceAt f (a :: b :: rest) = deviceAt (childAt f a) (b :: rest) := by
  unfold deviceAt
  rw [lookupPath_cons_cons]

@[simp] theorem deviceAt_nil_path (f : DForest) : deviceAt f [] = none := rfl

@[simp] theorem deviceAt_nilF (q : List Int) : deviceAt .nil q = none := by
  unfold deviceAt; rw [lookupPath_nilF]

/-! ### Frame lemmas for the tree builder's insertion -/

/-- lookupKey after setDevice: the slot at the target key gets the device and
keeps its children; every other key is untouched. -/
theorem lookupKey_setDevice : ∀ (f : DForest) (p : Int) (d : Device) (a : Int),
    lookupKey (setDevice f p d) a =
      if a = p then some (.mk (some d) (childAt f p)) else lookupKey f a
  | .nil, p, d, a => by
      by_cases h : a = p <;>
        simp [setDevice, lookupKey, childAt, h, Ne.symm]
  | .cons k t r, p, d, a => by
      by_cases hkp : k = p
      · subst hkp
        by_cases h : a = k <;>
          simp [setDevice, lookupKey, childAt, h, Ne.symm]
      · by_cases h : a = k
        · subst h
          simp [setDevice, lookupKey, childAt, hkp]
        · have := lookupKey_setDevice r p d a
          simp [setDevice, lookupKey, childAt, hkp, h, Ne.symm h] at this ⊢
          rw [this]

theorem deviceAt_single_eq (f : DForest) (a : Int) :
    deviceAt f [a] = devAtKey f a := rfl

/-- lookupKey after the intermediate-port walk: the slot at the walked key
keeps its device and has the insertion pushed into its children; every other
key is untouched. -/
theorem lookupKey_insertPath :
    ∀ (f : DForest) (p : Int) (rest : List Int) (lp : Int) (d : Device) (a : Int),
    lookupKey (insertPath f (p :: rest) lp d) a =
      if a = p then some (.mk (devAtKey f p) (insertPath (childAt f p) rest lp d))
      else lookupKey f a
  | .nil, p, rest, lp, d, a => by
      by_cases h : a = p <;>
        simp [insertPath_nil_path, insertPath_cons_nil, insertPath_cons_cons, lookupKey, childAt, devAtKey, h, Ne.symm]
  | .cons k t r, p, rest, lp, d, a => by
      by_cases hkp : k = p
      · subst hkp
        by_cases h : a = k <;>
          simp [insertPath_nil_path, insertPath_cons_nil, insertPath_cons_cons, lookupKey, childAt, devAtKey, h, Ne.symm]
      · by_cases h : a = k
        · subst h
          simp [insertPath_nil_path, insertPath_cons_nil, insertPath_cons_cons, lookupKey, childAt, devAtKey, hkp]
        · have := lookupKey_insertPath r p rest lp d a
          simp [insertPath_nil_path, insertPath_cons_nil, insertPath_cons_cons, lookupKey, childAt, devAtKey, hkp, h, Ne.symm h] at this ⊢
          rw [this]

theorem childAt_setDevice (f : DForest) (p : Int) (d : Device) (a : Int) :
    childAt (setDevice f p d) a = childAt f a := by
  unfold childAt
  rw [lookupKey_setDevice]
  by_cases h : a = p
  · subst h; simp [childAt]
  · simp [h]

/-- setDevice changes exactly the device slot at its single-key path. -/
theorem deviceAt_setDevice (f : DForest) (p : Int) (d : Device) : ∀ q,
    deviceAt (setDevice f p d) q = if q = [p] then some d else deviceAt f q
  | [] => by simp
  | [a] => by
      rw [deviceAt_single_eq, deviceAt_single_eq]
      unfold devAtKey
      rw [lookupKey_setDevice]
      by_cases h : a = p <;> simp [h]
  | a :: b :: rest => by
      rw [deviceAt_cons_cons, deviceAt_cons_cons, childAt_setDevice]
      simp

/-- The master frame lemma: inserting a record at path i ++ [lp] sets exactly
that device slot and leaves every other device slot as it was (placeholder
nodes it creates are device-less). -/
theorem deviceAt_insertPath :
    ∀ (i : List Int) (f : DForest) (lp : Int) (d : Device) (q : List Int),
    deviceAt (insertPath f i lp d) q = if q = i ++ [lp] then some d else deviceAt f q
  | [], f, lp, d, q => by
      simp only [insertPath_nil_path, insertPath_cons_nil, insertPath_cons_cons, List.nil_append]
      exact deviceAt_setDevice f lp d q
  | p :: rest, f, lp, d, [] => by simp [insertPath_nil_path, insertPath_cons_nil, insertPath_cons_cons]
  | p :: rest, f, lp, d, [a] => by
      rw [deviceAt_single_eq]
      unfold devAtKey
      rw [lookupKey_insertPath]
      by_cases h : a = p
      · subst h
        simp [deviceAt_single_eq, devAtKey]
      · simp [h, deviceAt_single_eq, devAtKey]
  | p :: rest, f, lp, d, a :: b :: q2 => by
      rw [deviceAt_cons_cons]
      by_cases h : a = p
      · subst h
        have hchild : childAt (insertPath f (a :: rest) lp d) a =
            insertPath (childAt f a) rest lp d := by
          unfold childAt
          rw [lookupKey_insertPath]
          simp [childAt]
        rw [hchild, deviceAt_insertPath rest (childAt f a) lp d (b :: q2),
          deviceAt_cons_cons]
        simp [List.cons_eq_cons]
      · have hchild : childAt (insertPath f (p :: rest) lp d) a = childAt f a := by
          unfold childAt
          rw [lookupKey_insertPath]
          simp [h]
        rw [hchild, deviceAt_cons_cons]
        simp [List.cons_eq_cons, h]

@[simp] theorem countF_nil (d : Device) : countF .nil d = 0 := rfl

@[simp] theorem countF_cons (k : Int) (t : DTree) (r : DForest) (d : Device) :
    countF (.cons k t r) d = countT t d + countF r d := rfl

@[simp] theorem countT_mk (dev : Option Device) (c : DForest) (d : Device) :
    countT (.mk dev c) d = (if dev = some d then 1 else 0) + countF c d := rfl

theorem lookupKey_cons_self (k : Int) (t : DTree) (r : DForest) :
    lookupKey (.cons k t r) k = some t := by simp [lookupKey]

theorem lookupKey_cons_ne (k : Int) (t : DTree) (r : DForest) (a : Int)
    (h : k ≠ a) : lookupKey (.cons k t r) a = lookupKey r a := by
  simp [lookupKey, h]

theorem childAt_cons_self (k : Int) (t : DTree) (r : DForest) :
    childAt (.cons k t r) k = t.childrenOf := by
  simp [childAt, lookupKey_cons_self]

theorem deviceAt_cons_ne_nil (f : DForest) (a : Int) :
    ∀ q, q ≠ [] → deviceAt f (a :: q) = deviceAt (childAt f a) q
  | [], hq => absurd rfl hq
  | _ :: _, _ => deviceAt_cons_cons f a _ _

theorem deviceAt_cons_key_ne (k : Int) (t : DTree) (r : DForest) (p : Int)
    (X : List Int) (h : k ≠ p) :
    deviceAt (.cons k t r) (p :: X) = deviceAt r (p :: X) := by
  cases X with
  | nil =>
      rw [deviceAt_single_eq, deviceAt_single_eq]
      unfold devAtKey
      rw [lookupKey_cons_ne _ _ _ _ h]
  | cons b t2 =>
      rw [deviceAt_cons_cons, deviceAt_cons_cons]
      unfold childAt
      rw [lookupKey_cons_ne _ _ _ _ h]

/-- Counting step for setDevice: one occurrence of the inserted device is
added and the overwritten slot's occurrence (if it held the counted device)
is removed; stated additively to stay in Nat. -/
theorem count_setDevice : ∀ (f : DForest) (p : Int) (d0 dd : Device),
    countF (setDevice f p d0) dd + (if devAtKey f p = some dd then 1 else 0) =
      countF f dd + (if d0 = dd then 1 else 0)
  | .nil, p, d0, dd => by
      simp [setDevice, devAtKey, lookupKey]
  | .cons k t r, p, d0, dd => by
      by_cases hkp : k = p
      · subst hkp
        cases t with
        | mk dv ch =>
            simp [setDevice, devAtKey, lookupKey_cons_self]
            omega
      · have ih := count_setDevice r p d0 dd
        simp only [setDevice, if_neg hkp, countF_cons]
        unfold devAtKey
        rw [lookupKey_cons_ne _ _ _ _ hkp]
        unfold devAtKey at ih
        omega

/-- Counting step for a full-path insertion: the placeholder slots it creates
are device-less, so only the final slot matters. -/
theorem count_insertPath :
    ∀ (i : List Int) (f : DForest) (lp : Int) (d0 dd : Device),
    countF (insertPath f i lp d0) dd +
        (if deviceAt f (i ++ [lp]) = some dd then 1 else 0) =
      countF f dd + (if d0 = dd then 1 else 0)
  | [], f, lp, d0, dd => by
      simp only [insertPath_nil_path, insertPath_cons_nil, insertPath_cons_cons, List.nil_append, deviceAt_single_eq]
      exact count_setDevice f lp d0 dd
  | p :: rest, .nil, lp, d0, dd => by
      have ih := count_insertPath rest .nil lp d0 dd
      simp only [insertPath_nil_path, insertPath_cons_nil, insertPath_cons_cons, List.cons_append, deviceAt_nilF] at ih ⊢
      simpa using ih
  | p :: rest, .cons k t r, lp, d0, dd => by
      by_cases hkp : k = p
      · subst hkp
        cases t with
        | mk dv ch =>
            have ih := count_insertPath rest ch lp d0 dd
            have hne : rest ++ [lp] ≠ [] := by simp
            have hdev : deviceAt (DForest.cons k (DTree.mk dv ch) r)
                (k :: (rest ++ [lp])) = deviceAt ch (rest ++ [lp]) := by
              rw [deviceAt_cons_ne_nil _ _ _ hne, childAt_cons_self,
                DTree.childrenOf_mk]
            simp only [insertPath_nil_path, insertPath_cons_nil, insertPath_cons_cons, eq_self_iff_true, if_true, DTree.deviceOf_mk,
              DTree.childrenOf_mk, countF_cons, countT_mk, List.cons_append, hdev]
            omega
      · have ih := count_insertPath (p :: rest) r lp d0 dd
        have hdev := deviceAt_cons_key_ne k t r p (rest ++ [lp]) hkp
        simp only [insertPath_nil_path, insertPath_cons_nil, insertPath_cons_cons, if_neg hkp, countF_cons, List.cons_append] at ih ⊢
        simp only [hdev]
        omega
termination_by i f => (i.length, sizeOf f)

/-! ### The builder fold: device slots, uniqueness, counting invariant -/

theorem splitLast_eq : ∀ (l i : List Int) (x : Int),
    splitLast l = some (i, x) → l = i ++ [x]
  | [], i, x, h => by simp [splitLast] at h
  | [a], i, x, h => by
      simp [splitLast] at h
      obtain ⟨h1, h2⟩ := h
      subst h1; subst h2; rfl
  | a :: b :: r, i, x, h => by
      simp only [splitLast] at h
      cases hs : splitLast (b :: r) with
      | none => rw [hs] at h; simp at h
      | some pr =>
          obtain ⟨i2, l2⟩ := pr
          rw [hs] at h
          simp only [Option.some.injEq, Prod.mk.injEq] at h
          obtain ⟨h1, h2⟩ := h
          have hp := splitLast_eq (b :: r) i2 l2 hs
          subst h1; subst h2
          simp [hp]

/-- A successful single-record insertion is an insertPath at the record's
resolved path. -/
theorem insertDevice_ok (f : DForest) (d : Device) (f1 : DForest)
    (h : insertDevice f d = .ok f1) :
    ∃ i lp, resolvedPath d = i ++ [lp] ∧ f1 = insertPath f i lp d := by
  cases hp : d.portNumbers with
  | none =>
      simp only [insertDevice, hp, Except.ok.injEq] at h
      refine ⟨[], d.portNumber, by simp [resolvedPath, hp], ?_⟩
      rw [← h]
      simp [insertPath_nil_path, insertPath_cons_nil, insertPath_cons_cons]
  | some ports =>
      simp only [insertDevice, hp] at h
      cases hs : splitLast ports with
      | none =>
          simp only [hs] at h
          exact absurd h (by simp)
      | some pr =>
          obtain ⟨i, lp⟩ := pr
          simp only [hs, Except.ok.injEq] at h
          exact ⟨i, lp, by simp [resolvedPath, hp, splitLast_eq ports i lp hs],
            h.symm⟩

/-- deviceAt after a successful single-record insertion. -/
theorem insertDevice_deviceAt (f : DForest) (d : Device) (f1 : DForest)
    (h : insertDevice f d = .ok f1) (q : List Int) :
    deviceAt f1 q = if q = resolvedPath d then some d else deviceAt f q := by
  obtain ⟨i, lp, hpath, hf1⟩ := insertDevice_ok f d f1 h
  rw [hf1, deviceAt_insertPath, hpath]

/-- deviceAt after the whole builder fold: the last record inserted at a path
owns its slot; slots no record resolved to keep their initial content. -/
theorem createFrom_deviceAt : ∀ (devs : List Device) (f g : DForest),
    createFrom f devs = .ok g → ∀ q,
    deviceAt g q = (match lastWith devs q with
                    | some x => some x
                    | none => deviceAt f q)
  | [], f, g, h, q => by
      simp only [createFrom, Except.ok.injEq] at h
      subst h
      simp [lastWith]
  | d :: rest, f, g, h, q => by
      simp only [createFrom] at h
      cases hd : insertDevice f d with
      | error e => rw [hd] at h; exact absurd h (by simp)
      | ok f1 =>
          rw [hd] at h
          have ih := createFrom_deviceAt rest f1 g h q
          have hstep := insertDevice_deviceAt f d f1 hd q
          cases hlw : lastWith rest q with
          | some x =>
              rw [hlw] at ih
              simp only [lastWith, hlw]
              exact ih
          | none =>
              rw [hlw] at ih
              simp only [lastWith, hlw]
              rw [ih, hstep]
              by_cases hq : q = resolvedPath d
              · simp [hq]
              · have hq2 : resolvedPath d ≠ q := fun hh => hq hh.symm
                simp [hq, hq2]

theorem keyMem_setDevice : ∀ (f : DForest) (p : Int) (d : Device) (a : Int),
    keyMem a (setDevice f p d) = true ↔ (keyMem a f = true ∨ a = p)
  | .nil, p, d, a => by simp [setDevice, keyMem]
  | .cons k t r, p, d, a => by
      by_cases hkp : k = p
      · subst hkp
        simp [setDevice, keyMem]
        tauto
      · have ih := keyMem_setDevice r p d a
        simp [setDevice, keyMem, hkp, ih]
        tauto

theorem keyMem_insertPath :
    ∀ (i : List Int) (f : DForest) (lp : Int) (d : Device) (a : Int),
    keyMem a (insertPath f i lp d) = true ↔
      (keyMem a f = true ∨ a = topKeyOf i lp)
  | [], f, lp, d, a => by
      simp only [insertPath_nil_path, insertPath_cons_nil, insertPath_cons_cons, topKeyOf]
      exact keyMem_setDevice f lp d a
  | p :: rest, .nil, lp, d, a => by
      simp [insertPath_nil_path, insertPath_cons_nil, insertPath_cons_cons, keyMem, topKeyOf]
  | p :: rest, .cons k t r, lp, d, a => by
      by_cases hkp : k = p
      · subst hkp
        simp [insertPath_nil_path, insertPath_cons_nil, insertPath_cons_cons, keyMem, topKeyOf]
        tauto
      · have ih := keyMem_insertPath (p :: rest) r lp d a
        simp only [topKeyOf] at ih ⊢
        simp [insertPath_nil_path, insertPath_cons_nil, insertPath_cons_cons, keyMem, hkp, ih]
        tauto
termination_by i f => (i.length, sizeOf f)

theorem uniq_setDevice : ∀ (f : DForest) (p : Int) (d : Device),
    dForestUniq f = true → dForestUniq (setDevice f p d) = true
  | .nil, p, d, _ => by simp [setDevice, dForestUniq, dTreeUniq, keyMem]
  | .cons k t r, p, d, h => by
      simp only [dForestUniq, Bool.and_eq_true, Bool.not_eq_true'] at h
      obtain ⟨⟨hmem, htree⟩, hrest⟩ := h
      by_cases hkp : k = p
      · subst hkp
        cases t with
        | mk dv ch =>
            simp only [setDevice, if_pos rfl, dForestUniq, dTreeUniq,
              Bool.and_eq_true, Bool.not_eq_true']
            exact ⟨⟨hmem, by simpa [dTreeUniq] using htree⟩, hrest⟩
      · have ih := uniq_setDevice r p d hrest
        simp only [setDevice, if_neg hkp, dForestUniq, Bool.and_eq_true,
          Bool.not_eq_true']
        refine ⟨⟨?_, htree⟩, ih⟩
        rw [Bool.eq_false_iff]
        intro hk
        rcases (keyMem_setDevice r p d k).mp hk with h1 | h1
        · rw [h1] at hmem; cases hmem
        · exact hkp h1

theorem uniq_insertPath :
    ∀ (i : List Int) (f : DForest) (lp : Int) (d : Device),
    dForestUniq f = true → dForestUniq (insertPath f i lp d) = true
  | [], f, lp, d, h => by
      simp only [insertPath_nil_path, insertPath_cons_nil, insertPath_cons_cons]
      exact uniq_setDevice f lp d h
  | p :: rest, .nil, lp, d, _ => by
      have ih := uniq_insertPath rest .nil lp d rfl
      simp [insertPath_nil_path, insertPath_cons_nil, insertPath_cons_cons, dForestUniq, dTreeUniq, keyMem, ih]
  | p :: rest, .cons k t r, lp, d, h => by
      simp only [dForestUniq, Bool.and_eq_true, Bool.not_eq_true'] at h
      obtain ⟨⟨hmem, htree⟩, hrest⟩ := h
      by_cases hkp : k = p
      · subst hkp
        cases t with
        | mk dv ch =>
            simp only [insertPath_nil_path, insertPath_cons_nil, insertPath_cons_cons, if_pos rfl, DTree.deviceOf_mk,
              DTree.childrenOf_mk, dForestUniq, dTreeUniq, Bool.and_eq_true,
              Bool.not_eq_true']
            refine ⟨⟨hmem, ?_⟩, hrest⟩
            exact uniq_insertPath rest ch lp d (by simpa [dTreeUniq] using htree)
      · have ih := uniq_insertPath (p :: rest) r lp d hrest
        simp only [insertPath_nil_path, insertPath_cons_nil, insertPath_cons_cons, if_neg hkp, dForestUniq, Bool.and_eq_true,
          Bool.not_eq_true']
        refine ⟨⟨?_, htree⟩, ih⟩
        rw [Bool.eq_false_iff]
        intro hk
        rcases (keyMem_insertPath (p :: rest) r lp d k).mp hk with h1 | h1
        · rw [h1] at hmem; cases hmem
        · exact hkp (by simpa [topKeyOf] using h1)
termination_by i f => (i.length, sizeOf f)

theorem createFrom_inv : ∀ (devs : List Device) (f g : DForest),
    PathOk f → CountOk f → dForestUniq f = true →
    createFrom f devs = .ok g →
    PathOk g ∧ CountOk g ∧ dForestUniq g = true
  | [], f, g, hP, hC, hU, h => by
      simp only [createFrom, Except.ok.injEq] at h
      subst h
      exact ⟨hP, hC, hU⟩
  | d :: rest, f, g, hP, hC, hU, h => by
      simp only [createFrom] at h
      cases hd : insertDevice f d with
      | error e => rw [hd] at h; exact absurd h (by simp)
      | ok f1 =>
          rw [hd] at h
          obtain ⟨i, lp, hpath, hf1⟩ := insertDevice_ok f d f1 hd
          have hstep := insertDevice_deviceAt f d f1 hd
          have hP1 : PathOk f1 := by
            intro dd q hq
            rw [hstep q] at hq
            by_cases hq2 : q = resolvedPath d
            · simp only [if_pos hq2, Option.some.injEq] at hq
              rw [hq2, hq]
            · rw [if_neg hq2] at hq
              exact hP dd q hq
          have hC1 : CountOk f1 := by
            intro dd
            have hcnt : countF f1 dd +
                (if deviceAt f (resolvedPath d) = some dd then 1 else 0) =
                countF f dd + (if d = dd then 1 else 0) := by
              rw [hf1, hpath]
              exact count_insertPath i f lp d dd
            have hCf := hC dd
            rw [hstep (resolvedPath dd)]
            by_cases h1 : resolvedPath dd = resolvedPath d
            · rw [if_pos h1]
              by_cases h2 : d = dd
              · subst h2
                rw [← h1] at hcnt
                simp only [if_pos rfl] at hcnt ⊢
                omega
              · have : (some d = some dd) = False := by
                  simp
                  intro hdd
                  exact h2 hdd
                rw [← h1] at hcnt
                simp only [this, if_false, if_neg h2] at hcnt ⊢
                omega
            · rw [if_neg h1]
              have e1 : (if deviceAt f (resolvedPath d) = some dd then 1 else 0) = 0 := by
                by_cases hdd : deviceAt f (resolvedPath d) = some dd
                · exact absurd (hP dd (resolvedPath d) hdd).symm h1
                · simp [hdd]
              have e2 : (if d = dd then 1 else 0) = 0 := by
                by_cases hdd : d = dd
                · subst hdd; exact absurd rfl h1
                · simp [hdd]
              rw [e1, e2] at hcnt
              omega
          have hU1 : dForestUniq f1 = true := by
            rw [hf1]
            exact uniq_insertPath i f lp d hU
          exact createFrom_inv rest f1 g hP1 hC1 hU1 h

/-! ### Sorting: key stability, count preservation, ascending order -/

theorem keyMem_insertSorted : ∀ (g : DForest) (k : Int) (t : DTree) (a : Int),
    keyMem a (insertSorted k t g) = true ↔ (a = k ∨ keyMem a g = true)
  | .nil, k, t, a => by simp [insertSorted, keyMem]
  | .cons k2 t2 r, k, t, a => by
      by_cases hle : k2 ≤ k
      · have ih := keyMem_insertSorted r k t a
        simp [insertSorted, hle, keyMem, ih]
        tauto
      · simp [insertSorted, hle, keyMem]

theorem keyMem_sort : ∀ (f : DForest) (a : Int),
    keyMem a (sortForest f) = true ↔ keyMem a f = true
  | .nil, a => by simp [sortForest]
  | .cons k t r, a => by
      have ih := keyMem_sort r a
      simp [sortForest, keyMem_insertSorted, keyMem, ih]

theorem lookupKey_insertSorted :
    ∀ (g : DForest) (k : Int) (t : DTree) (a : Int), keyMem k g = false →
    lookupKey (insertSorted k t g) a = if a = k then some t else lookupKey g a
  | .nil, k, t, a, _ => by
      by_cases h : a = k <;> simp [insertSorted, lookupKey, h, Ne.symm]
  | .cons k2 t2 r, k, t, a, hmem => by
      simp only [keyMem, Bool.or_eq_false_iff, beq_eq_false_iff_ne, ne_eq] at hmem
      obtain ⟨hne, hmem⟩ := hmem
      by_cases hle : k2 ≤ k
      · have ih := lookupKey_insertSorted r k t a hmem
        by_cases hak2 : a = k2
        · subst hak2
          have hak : a ≠ k := fun h => hne h.symm
          simp [insertSorted, hle, lookupKey, hak]
        · simp [insertSorted, hle, lookupKey, Ne.symm hak2, ih]
      · by_cases hak : a = k
        · subst hak
          simp [insertSorted, hle, lookupKey]
        · have hka : k ≠ a := fun h => hak h.symm
          simp [insertSorted, hle, lookupKey, hka, hak]

theorem lookupKey_sort : ∀ (f : DForest) (a : Int), dForestUniq f = true →
    lookupKey (sortForest f) a = (lookupKey f a).map sortTree
  | .nil, a, _ => by simp [sortForest, lookupKey]
  | .cons k t r, a, hU => by
      simp only [dForestUniq, Bool.and_eq_true, Bool.not_eq_true'] at hU
      obtain ⟨⟨hmem, htree⟩, hrest⟩ := hU
      have hmem2 : keyMem k (sortForest r) = false := by
        rw [Bool.eq_false_iff]
        intro hk
        rw [(keyMem_sort r k).mp hk] at hmem
        cases hmem
      have ih := lookupKey_sort r a hrest
      rw [show sortForest (.cons k t r) = insertSorted k (sortTree t) (sortForest r)
          from rfl,
        lookupKey_insertSorted _ _ _ _ hmem2]
      by_cases hak : a = k
      · subst hak
        simp [lookupKey]
      · simp [lookupKey, Ne.symm hak, hak, ih]

theorem childAt_sort (f : DForest) (a : Int) (hU : dForestUniq f = true) :
    childAt (sortForest f) a = sortForest (childAt f a) := by
  unfold childAt
  rw [lookupKey_sort f a hU]
  cases lookupKey f a with
  | none => simp [sortForest]
  | some t => cases t with | mk dv ch => simp [sortTree]

theorem uniq_childAt : ∀ (f : DForest) (a : Int), dForestUniq f = true →
    dForestUniq (childAt f a) = true
  | .nil, a, _ => rfl
  | .cons k t r, a, hU => by
      simp only [dForestUniq, Bool.and_eq_true, Bool.not_eq_true'] at hU
      obtain ⟨⟨hmem, htree⟩, hrest⟩ := hU
      by_cases hak : k = a
      · subst hak
        cases t with
        | mk dv ch =>
            rw [show childAt (.cons k (.mk dv ch) r) k = ch from by
              simp [childAt, lookupKey]]
            simpa [dTreeUniq] using htree
      · rw [show childAt (.cons k t r) a = childAt r a from by
          simp [childAt, lookupKey, hak]]
        exact uniq_childAt r a hrest

theorem deviceAt_sort : ∀ (q : List Int) (f : DForest), dForestUniq f = true →
    deviceAt (sortForest f) q = deviceAt f q
  | [], f, _ => by simp
  | [a], f, hU => by
      rw [deviceAt_single_eq, deviceAt_single_eq]
      unfold devAtKey
      rw [lookupKey_sort f a hU]
      cases lookupKey f a with
      | none => rfl
      | some t => cases t with | mk dv ch => simp [sortTree]
  | a :: b :: rest, f, hU => by
      rw [deviceAt_cons_cons, deviceAt_cons_cons, childAt_sort f a hU]
      exact deviceAt_sort (b :: rest) (childAt f a) (uniq_childAt f a hU)

theorem count_insertSorted : ∀ (g : DForest) (k : Int) (t : DTree) (dd : Device),
    countF (insertSorted k t g) dd = countT t dd + countF g dd
  | .nil, k, t, dd => by simp [insertSorted]
  | .cons k2 t2 r, k, t, dd => by
      by_cases hle : k2 ≤ k
      · have ih := count_insertSorted r k t dd
        simp [insertSorted, hle, ih]
        omega
      · simp [insertSorted, hle]

mutual
theorem countT_sort : ∀ (t : DTree) (dd : Device),
    countT (sortTree t) dd = countT t dd
  | .mk dv ch, dd => by
      simp only [sortTree, countT_mk]
      rw [countF_sort ch dd]

theorem countF_sort : ∀ (f : DForest) (dd : Device),
    countF (sortForest f) dd = countF f dd
  | .nil, dd => rfl
  | .cons k t r, dd => by
      simp only [sortForest, countF_cons]
      rw [count_insertSorted, countT_sort t dd, countF_sort r dd]
end


theorem headLB_insertSorted (a k : Int) (t : DTree) :
    ∀ g : DForest, headLB a g = true → a < k →
    headLB a (insertSorted k t g) = true
  | .nil, _, hak => by simpa [insertSorted, headLB]
  | .cons k2 t2 r, hg, hak => by
      by_cases hle : k2 ≤ k
      · simpa [insertSorted, hle, headLB] using hg
      · simpa [insertSorted, hle, headLB]

theorem asc_insertSorted : ∀ (g : DForest) (k : Int) (t : DTree),
    dForestAsc g = true → dTreeAsc t = true → keyMem k g = false →
    dForestAsc (insertSorted k t g) = true
  | .nil, k, t, _, ht, _ => by
      simp [insertSorted, dForestAsc, headLB, ht]
  | .cons k2 t2 r, k, t, hg, ht, hmem => by
      simp only [dForestAsc, Bool.and_eq_true] at hg
      obtain ⟨⟨ht2, hlb⟩, hr⟩ := hg
      simp only [keyMem, Bool.or_eq_false_iff, beq_eq_false_iff_ne, ne_eq] at hmem
      obtain ⟨hne, hmem⟩ := hmem
      by_cases hle : k2 ≤ k
      · have hlt : k2 < k := lt_of_le_of_ne hle (fun h => hne h.symm)
        have ih := asc_insertSorted r k t hr ht hmem
        simp only [insertSorted, if_pos hle, dForestAsc, Bool.and_eq_true]
        exact ⟨⟨ht2, headLB_insertSorted k2 k t r hlb hlt⟩, ih⟩
      · have hlt : k < k2 := by omega
        simp only [insertSorted, if_neg hle, dForestAsc, headLB,
          Bool.and_eq_true, decide_eq_true_eq]
        exact ⟨⟨ht, hlt⟩, ⟨⟨ht2, hlb⟩, hr⟩⟩

mutual
theorem sortTree_asc : ∀ t : DTree, dTreeUniq t = true →
    dTreeAsc (sortTree t) = true
  | .mk dv ch, hU => by
      simp only [sortTree, dTreeAsc]
      exact sortForest_asc ch (by simpa [dTreeUniq] using hU)

theorem sortForest_asc : ∀ f : DForest, dForestUniq f = true →
    dForestAsc (sortForest f) = true
  | .nil, _ => rfl
  | .cons k t r, hU => by
      simp only [dForestUniq, Bool.and_eq_true, Bool.not_eq_true'] at hU
      obtain ⟨⟨hmem, htree⟩, hrest⟩ := hU
      have hmem2 : keyMem k (sortForest r) = false := by
        rw [Bool.eq_false_iff]
        intro hk
        rw [(keyMem_sort r k).mp hk] at hmem
        cases hmem
      simp only [sortForest]
      exact asc_insertSorted (sortForest r) k (sortTree t)
        (sortForest_asc r hrest) (sortTree_asc t htree) hmem2
end


/-! ### Conversion transfer: the item forest mirrors the sorted mapping -/

theorem mkForest_cons_ok (k : Int) (dv : Option Device) (ch r : DForest)
    (lvl : Nat) (g : ItemForest)
    (h : mkForest (.cons k (.mk dv ch) r) lvl = .ok g) :
    ∃ it rest, mkItem dv ch lvl = .ok it ∧ mkForest r lvl = .ok rest ∧
      g = .cons k it rest := by
  simp only [mkForest] at h
  cases h1 : mkForest ch (lvl + 1) with
  | error e =>
      rw [h1] at h
      simp at h
  | ok cs =>
      rw [h1] at h
      cases dv with
      | none => simp at h
      | some d =>
          cases h2 : mkForest r lvl with
          | error e =>
              rw [h2] at h
              simp at h
          | ok rest =>
              rw [h2] at h
              simp only [Except.ok.injEq] at h
              exact ⟨.mk (mkData d lvl) cs, rest, by simp [mkItem, h1], rfl,
                h.symm⟩

theorem mkItem_ok (dev : Option Device) (c : DForest) (lvl : Nat) (it : Item)
    (h : mkItem dev c lvl = .ok it) :
    ∃ d cs, dev = some d ∧ mkForest c (lvl + 1) = .ok cs ∧
      it = .mk (mkData d lvl) cs := by
  unfold mkItem at h
  cases h1 : mkForest c (lvl + 1) with
  | error e =>
      rw [h1] at h
      simp at h
  | ok cs =>
      rw [h1] at h
      cases dev with
      | none => simp at h
      | some d =>
          simp only [Except.ok.injEq] at h
          exact ⟨d, cs, rfl, rfl, h.symm⟩

@[simp] theorem countIF_nil (d : Device) : countIF .nil d = 0 := rfl

@[simp] theorem countIF_cons (k : Int) (it : Item) (r : ItemForest) (d : Device) :
    countIF (.cons k it r) d = countI it d + countIF r d := rfl

@[simp] theorem countI_mk (data : ItemData) (c : ItemForest) (d : Device) :
    countI (.mk data c) d = (if data.device = d then 1 else 0) + countIF c d := rfl

mutual
theorem mkItem_count : ∀ (dev : Option Device) (c : DForest) (lvl : Nat)
    (it : Item) (dd : Device), mkItem dev c lvl = .ok it →
    countI it dd = countT (.mk dev c) dd
  | dev, c, lvl, it, dd, h => by
      obtain ⟨d, cs, hdev, hcs, hit⟩ := mkItem_ok dev c lvl it h
      subst hdev
      subst hit
      have := mkForest_count c (lvl + 1) cs dd hcs
      simp [mkData, this]

theorem mkForest_count : ∀ (f : DForest) (lvl : Nat) (g : ItemForest)
    (dd : Device), mkForest f lvl = .ok g → countIF g dd = countF f dd
  | .nil, lvl, g, dd, h => by
      simp only [mkForest, Except.ok.injEq] at h
      subst h
      rfl
  | .cons k (.mk dv ch) r, lvl, g, dd, h => by
      obtain ⟨it, rest, h1, h2, hg⟩ := mkForest_cons_ok k dv ch r lvl g h
      subst hg
      have e1 := mkItem_count dv ch lvl it dd h1
      have e2 := mkForest_count r lvl rest dd h2
      simp [e1, e2]
end


/-- Key-level correspondence between a successfully converted forest and its
source mapping. -/
theorem mkForest_lookupKey : ∀ (f : DForest) (lvl : Nat) (g : ItemForest)
    (a : Int), mkForest f lvl = .ok g →
    (match lookupKey f a with
     | none => lookupKeyI g a = none
     | some t => ∃ it, lookupKeyI g a = some it ∧
         mkItem t.deviceOf t.childrenOf lvl = .ok it)
  | .nil, lvl, g, a, h => by
      simp only [mkForest, Except.ok.injEq] at h
      subst h
      simp [lookupKey, lookupKeyI]
  | .cons k (.mk dv ch) r, lvl, g, a, h => by
      obtain ⟨it, rest, h1, h2, hg⟩ := mkForest_cons_ok k dv ch r lvl g h
      subst hg
      by_cases hak : k = a
      · subst hak
        simp only [lookupKey_cons_self]
        exact ⟨it, by simp [lookupKeyI], by simpa using h1⟩
      · have ih := mkForest_lookupKey r lvl rest a h2
        rw [lookupKey_cons_ne _ _ _ _ hak]
        simpa [lookupKeyI, hak] using ih

/-- Device slots transfer through conversion: looking a path up in the item
forest and reading its wrapped device agrees with the device slot of the
source mapping. -/
theorem mkForest_deviceAt : ∀ (q : List Int) (f : DForest) (lvl : Nat)
    (g : ItemForest), mkForest f lvl = .ok g →
    (lookupPathI g q).map Item.deviceOf = deviceAt f q
  | [], f, lvl, g, h => by simp [lookupPathI]
  | [a], f, lvl, g, h => by
      have hk := mkForest_lookupKey f lvl g a h
      rw [deviceAt_single_eq]
      unfold devAtKey
      cases hl : lookupKey f a with
      | none =>
          rw [hl] at hk
          simp only [lookupPathI]
          rw [hk]
          rfl
      | some t =>
          rw [hl] at hk
          obtain ⟨it, hit, hmk⟩ := hk
          obtain ⟨d, cs, hdev, hcs, hiteq⟩ := mkItem_ok _ _ _ _ hmk
          simp only [lookupPathI]
          rw [hit, hiteq, hdev]
          simp [Item.deviceOf, mkData]
  | a :: b :: q2, f, lvl, g, h => by
      rw [lookupPathI_cons_cons, deviceAt_cons_cons]
      have hk := mkForest_lookupKey f lvl g a h
      cases hl : lookupKey f a with
      | none =>
          rw [hl] at hk
          have hcA : childAtI g a = .nil := by simp [childAtI, hk]
          have hcD : childAt f a = .nil := by simp [childAt, hl]
          rw [hcA, hcD]
          simp
      | some t =>
          rw [hl] at hk
          obtain ⟨it, hit, hmk⟩ := hk
          obtain ⟨d, cs, hdev, hcs, hiteq⟩ := mkItem_ok _ _ _ _ hmk
          have hcA : childAtI g a = cs := by
            simp [childAtI, hit, hiteq]
          have hcD : childAt f a = t.childrenOf := by simp [childAt, hl]
          rw [hcA, hcD]
          exact mkForest_deviceAt (b :: q2) t.childrenOf (lvl + 1) cs hcs

/-- Head keys transfer through conversion. -/
theorem mkForest_headLB (r : DForest) (lvl : Nat) (rest : ItemForest) (a : Int)
    (h : mkForest r lvl = .ok rest) : headLBI a rest = headLB a r := by
  cases r with
  | nil =>
      simp only [mkForest, Except.ok.injEq] at h
      subst h
      rfl
  | cons k t rr =>
      cases t with
      | mk dv ch =>
          obtain ⟨it, rest2, h1, h2, hg⟩ := mkForest_cons_ok k dv ch rr lvl rest h
          subst hg
          rfl

mutual
/-- Ascending key order transfers through conversion (item side). -/
theorem mkItem_asc : ∀ (dev : Option Device) (c : DForest) (lvl : Nat)
    (it : Item), mkItem dev c lvl = .ok it → dForestAsc c = true →
    itemAsc it = true
  | dev, c, lvl, it, h, hasc => by
      obtain ⟨d, cs, hdev, hcs, hit⟩ := mkItem_ok dev c lvl it h
      subst hit
      simp only [itemAsc]
      exact mkForest_asc c (lvl + 1) cs hcs hasc

theorem mkForest_asc : ∀ (f : DForest) (lvl : Nat) (g : ItemForest),
    mkForest f lvl = .ok g → dForestAsc f = true → itemForestAsc g = true
  | .nil, lvl, g, h, _ => by
      simp only [mkForest, Except.ok.injEq] at h
      subst h
      rfl
  | .cons k (.mk dv ch) r, lvl, g, h, hasc => by
      obtain ⟨it, rest, h1, h2, hg⟩ := mkForest_cons_ok k dv ch r lvl g h
      subst hg
      simp only [dForestAsc, dTreeAsc, Bool.and_eq_true] at hasc
      obtain ⟨⟨hch, hlb⟩, hr⟩ := hasc
      simp only [itemForestAsc, Bool.and_eq_true]
      refine ⟨⟨mkItem_asc dv ch lvl it h1 hch, ?_⟩, mkForest_asc r lvl rest h2 hr⟩
      rw [mkForest_headLB r lvl rest k h2]
      exact hlb
end


/-! ### The ascent loop and the search -/

/-- Ascending exactly one step past the whole ancestor chain lands on the
parent of a root, which is None: no error, but no node either. -/
theorem ascend_one_past : ∀ (anc : List Item) (x : Item),
    ascend (some x) anc (anc.length + 1) = .ok none
  | [], _ => rfl
  | a :: r, _ => ascend_one_past r a

/-- Ascending two or more steps past the chain dereferences .parent on None
and raises. -/
theorem ascend_err : ∀ (anc : List Item) (x : Item) (d : Nat),
    anc.length + 2 ≤ d → ascend (some x) anc d = .error .attributeError
  | [], x, d, h => by
      obtain ⟨m, rfl⟩ : ∃ m, d = m + 2 := ⟨d - 2, by omega⟩
      rfl
  | a :: r, x, d, h => by
      obtain ⟨m, rfl⟩ : ∃ m, d = m + 1 := ⟨d - 1, by omega⟩
      have h2 : r.length + 2 ≤ m := by
        simp only [List.length_cons] at h
        omega
      exact ascend_err r a m h2

/-- A successful ascent of d steps within the chain reaches ancestor d-1. -/
theorem ascend_within : ∀ (anc : List Item) (x : Item) (d : Nat),
    d + 1 ≤ anc.length →
    ascend (some x) anc (d + 1) = .ok (anc.get? d)
  | [], x, d, h => by simp at h
  | a :: r, x, 0, h => by simp [ascend]
  | a :: r, x, d + 1, h => by
      have h2 : d + 1 ≤ r.length := by
        simp only [List.length_cons] at h
        omega
      exact ascend_within r a d h2

/-- One-step unfolding of find_hmd on a node. -/
theorem findHmd_eq (anc : List Item) (data : ItemData) (cs : ItemForest) :
    findHmd anc (.mk data cs) =
      match findHmdForest (Item.mk data cs :: anc) cs with
      | .error e => .error e
      | .ok (some h) => .ok (some h)
      | .ok none =>
          match getHmdRootDepth (Item.mk data cs) with
          | none => .ok none
          | some d =>
              match ascend (some (Item.mk data cs)) anc d with
              | .error e => .error e
              | .ok dev => .ok (some ⟨dev, Item.mk data cs⟩) := by
  simp only [findHmd]

theorem findHmdForest_cons_eq (anc : List Item) (k : Int) (c : Item)
    (r : ItemForest) :
    findHmdForest anc (.cons k c r) =
      match findHmd anc c with
      | .error e => .error e
      | .ok (some h) => .ok (some h)
      | .ok none => findHmdForest anc r := by
  simp only [findHmdForest]

@[simp] theorem findHmdForest_nil (anc : List Item) :
    findHmdForest anc .nil = .ok none := rfl

mutual
/-- The matched node of any finding produced inside a subtree search is a
node of that subtree. -/
theorem findHmd_id_mem : ∀ (anc : List Item) (it : Item) (h : ViveHMD),
    findHmd anc it = .ok (some h) → ItemMemI h.idDevice it
  | anc, .mk data cs, h, hh => by
      rw [findHmd_eq] at hh
      cases hf : findHmdForest (Item.mk data cs :: anc) cs with
      | error e => rw [hf] at hh; simp at hh
      | ok o =>
          cases o with
          | some h2 =>
              rw [hf] at hh
              simp only [Except.ok.injEq, Option.some.injEq] at hh
              subst hh
              exact Or.inr (findHmdForest_id_mem _ cs h2 hf)
          | none =>
              rw [hf] at hh
              replace hh : (match getHmdRootDepth (Item.mk data cs) with
                  | none => (Except.ok none : Except Err (Option ViveHMD))
                  | some d =>
                      match ascend (some (Item.mk data cs)) anc d with
                      | .error e => .error e
                      | .ok dev => .ok (some ⟨dev, Item.mk data cs⟩)) =
                  .ok (some h) := hh
              cases hd : getHmdRootDepth (.mk data cs) with
              | none => rw [hd] at hh; simp at hh
              | some d =>
                  rw [hd] at hh
                  replace hh : (match ascend (some (Item.mk data cs)) anc d with
                      | .error e => (.error e : Except Err (Option ViveHMD))
                      | .ok dev => .ok (some ⟨dev, Item.mk data cs⟩)) =
                      .ok (some h) := hh
                  cases ha : ascend (some (.mk data cs)) anc d with
                  | error e => rw [ha] at hh; simp at hh
                  | ok dev =>
                      rw [ha] at hh
                      simp only [Except.ok.injEq, Option.some.injEq] at hh
                      subst hh
                      exact Or.inl rfl

theorem findHmdForest_id_mem : ∀ (anc : List Item) (F : ItemForest) (h : ViveHMD),
    findHmdForest anc F = .ok (some h) → ItemMemF h.idDevice F
  | anc, .nil, h, hh => by simp at hh
  | anc, .cons k c r, h, hh => by
      rw [findHmdForest_cons_eq] at hh
      cases hc : findHmd anc c with
      | error e => rw [hc] at hh; simp at hh
      | ok o =>
          cases o with
          | some h2 =>
              rw [hc] at hh
              simp only [Except.ok.injEq, Option.some.injEq] at hh
              subst hh
              exact Or.inl (findHmd_id_mem anc c h2 hc)
          | none =>
              rw [hc] at hh
              exact Or.inr (findHmdForest_id_mem anc r h hh)
end


/-! ### The flattened traversal and hub reachability -/

/-- Inversion for HubReach in terms of direct children. -/
theorem hubReach_iff (a x : Item) :
    HubReach a x ↔ (memTop x a.childrenF ∨
      ∃ c, memTop c a.childrenF ∧ isHub c = true ∧ HubReach c x) := by
  constructor
  · intro h
    cases h with
    | child h1 => exact Or.inl h1
    | hub hc hh hr => exact Or.inr ⟨_, hc, hh, hr⟩
  · intro h
    rcases h with h1 | ⟨c, hc, hh, hr⟩
    · exact HubReach.child h1
    · exact HubReach.hub hc hh hr

mutual
/-- Membership in the flattened list of one item equals hub reachability. -/
theorem mem_flatItem_iff : ∀ (a x : Item), x ∈ flatItem a ↔ HubReach a x
  | .mk data cs, x => by
      rw [hubReach_iff]
      simp only [Item.childrenF_mk]
      exact mem_flatForest_iff cs x

/-- Membership in the flattened list of a children dict. -/
theorem mem_flatForest_iff : ∀ (F : ItemForest) (x : Item),
    x ∈ flatForest F ↔ (memTop x F ∨
      ∃ c, memTop c F ∧ isHub c = true ∧ HubReach c x)
  | .nil, x => by simp [flatForest, memTop]
  | .cons k c r, x => by
      have ihc := mem_flatItem_iff c x
      have ihr := mem_flatForest_iff r x
      have hsplit : (x ∈ if isHub c then flatItem c else []) ↔
          (isHub c = true ∧ HubReach c x) := by
        cases hub : isHub c <;> simp [ihc]
      simp only [flatForest, List.mem_cons, List.mem_append, hsplit, ihr, memTop]
      constructor
      · rintro (h1 | ⟨hh, hr⟩ | h3 | ⟨c2, hm, hh2, hr2⟩)
        · exact Or.inl (Or.inl h1)
        · exact Or.inr ⟨c, Or.inl rfl, hh, hr⟩
        · exact Or.inl (Or.inr h3)
        · exact Or.inr ⟨c2, Or.inr hm, hh2, hr2⟩
      · rintro ((h1 | h2) | ⟨c2, hm | hm, hh, hr⟩)
        · exact Or.inl h1
        · exact Or.inr (Or.inr (Or.inl h2))
        · subst hm
          exact Or.inr (Or.inl ⟨hh, hr⟩)
        · exact Or.inr (Or.inr (Or.inr ⟨c2, hm, hh, hr⟩))
end


theorem memTop_memF : ∀ (F : ItemForest) (x : Item), memTop x F → ItemMemF x F
  | .cons k it r, x, h => by
      cases h with
      | inl h1 =>
          subst h1
          cases x with
          | mk d c => exact Or.inl (Or.inl rfl)
      | inr h2 => exact Or.inr (memTop_memF r x h2)

theorem memF_of_child : ∀ (F : ItemForest) (c x : Item), memTop c F →
    ItemMemF x c.childrenF → ItemMemF x F
  | .cons k it r, c, x, hm, hx => by
      cases hm with
      | inl h1 =>
          subst h1
          cases c with
          | mk d cs => exact Or.inl (Or.inr hx)
      | inr h2 => exact Or.inr (memF_of_child r c x h2 hx)

/-- Everything hub-reachable from an ancestor lies in its subtree. -/
theorem hubReach_memF (a x : Item) (h : HubReach a x) :
    ItemMemF x a.childrenF := by
  induction h with
  | child h1 => exact memTop_memF _ _ h1
  | hub hc hh hr ih => exact memF_of_child _ _ _ hc ih

/-! ### Pipeline decomposition -/

theorem buildForest_ok (devs : List Device) (g : ItemForest)
    (h : buildForest devs = .ok g) :
    ∃ t, createDeviceTree devs = .ok t ∧ mkForest (sortForest t) 0 = .ok g := by
  unfold buildForest at h
  cases ht : createDeviceTree devs with
  | error e =>
      rw [ht] at h
      simp at h
  | ok t =>
      rw [ht] at h
      exact ⟨t, rfl, h⟩

theorem createDeviceTree_inv (devs : List Device) (t : DForest)
    (h : createDeviceTree devs = .ok t) :
    PathOk t ∧ CountOk t ∧ dForestUniq t = true := by
  refine createFrom_inv devs .nil t ?_ ?_ rfl h
  · intro dd q hq
    simp at hq
  · intro dd
    simp [CountOk]

/-! ### lastWith: which record owns a path after the whole fold -/

theorem lastWith_mem : ∀ (devs : List Device) (p : List Int) (dl : Device),
    lastWith devs p = some dl → resolvedPath dl = p ∧ dl ∈ devs
  | [], p, dl, h => by simp [lastWith] at h
  | d :: rest, p, dl, h => by
      simp only [lastWith] at h
      cases hlw : lastWith rest p with
      | some x =>
          rw [hlw] at h
          simp only [Option.some.injEq] at h
          obtain ⟨hp, hm⟩ := lastWith_mem rest p x hlw
          rw [← h]
          exact ⟨hp, List.mem_cons_of_mem d hm⟩
      | none =>
          rw [hlw] at h
          by_cases hp : resolvedPath d = p
          · rw [if_pos hp] at h
            simp only [Option.some.injEq] at h
            subst h
            exact ⟨hp, List.mem_cons_self d rest⟩
          · rw [if_neg hp] at h
            cases h

theorem lastWith_nodup : ∀ (devs : List Device) (d : Device),
    (devs.map resolvedPath).Nodup → d ∈ devs →
    lastWith devs (resolvedPath d) = some d
  | [], d, _, hd => by simp at hd
  | e :: rest, d, hnd, hd => by
      simp only [List.map_cons, List.nodup_cons] at hnd
      obtain ⟨hnotin, hnd2⟩ := hnd
      rcases List.mem_cons.mp hd with rfl | hd2
      · have hnone : lastWith rest (resolvedPath d) = none := by
          cases hlw : lastWith rest (resolvedPath d) with
          | none => rfl
          | some x =>
              obtain ⟨hp, hm⟩ := lastWith_mem rest (resolvedPath d) x hlw
              have : resolvedPath x ∈ rest.map resolvedPath :=
                List.mem_map_of_mem resolvedPath hm
              rw [hp] at this
              exact absurd this hnotin
        simp [lastWith, hnone]
      · have ih := lastWith_nodup rest d hnd2 hd2
        simp [lastWith, ih]

/-- The two facts every round-trip claim needs: in a successfully built item
forest, looking up a path yields exactly the last record that resolved to it,
and each record's node count is one or zero accordingly. -/
theorem buildForest_slots (devs : List Device) (g : ItemForest)
    (hok : buildForest devs = .ok g) :
    (∀ q, (lookupPathI g q).map Item.deviceOf = lastWith devs q) ∧
    (∀ dd, countIF g dd =
      if lastWith devs (resolvedPath dd) = some dd then 1 else 0) := by
  obtain ⟨t, ht, hmk⟩ := buildForest_ok devs g hok
  obtain ⟨hP, hC, hU⟩ := createDeviceTree_inv devs t ht
  have hdev : ∀ q, deviceAt t q = lastWith devs q := by
    intro q
    have := createFrom_deviceAt devs .nil t ht q
    rw [this]
    cases lastWith devs q with
    | some x => rfl
    | none => simp
  constructor
  · intro q
    rw [mkForest_deviceAt q (sortForest t) 0 g hmk, deviceAt_sort q t hU,
      hdev q]
  · intro dd
    rw [mkForest_count (sortForest t) 0 g dd hmk, countF_sort t dd, hC dd,
      hdev (resolvedPath dd)]

/-- find_hmd on a leaf node: no children to search, only the signature test
and the ascent. -/
theorem findHmd_leaf (anc : List Item) (data : ItemData) :
    findHmd anc (.mk data .nil) =
      (match getHmdRootDepth (.mk data .nil) with
       | none => .ok none
       | some d =>
           match ascend (some (.mk data .nil)) anc d with
           | .error e => .error e
           | .ok dev => .ok (some ⟨dev, .mk data .nil⟩)) := rfl

/-- Claim C1: the spec says a port position implied by a child's path but
never enumerated yields a navigable device-less Tree Node and construction
does not throw. The builder's nested mapping does tolerate the placeholder,
but converting it to Tree Nodes reads .address of the placeholder's None
device and raises AttributeError, so the whole construction fails on such
input. -/
theorem claim_C1_placeholder_conversion_raises :
    createDeviceTree [devHubless] =
      .ok (.cons 1 (.mk none (.cons 1 (.mk (some devHubless) .nil) .nil)) .nil) ∧
    buildForest [devHubless] = .error .attributeError := ⟨rfl, rfl⟩

/-- Claim C2 counterexample: a node matching the vid/pid HMD row at a bus
root has 0 ancestors, fewer than the required ascent depth 3; the claim says
the scan emits no finding and does not raise, but the code raises
(AttributeError from .parent on None) and the whole scan aborts. -/
theorem claim_C2_counterexample :
    buildForest [devHmdRoot] = .ok forestHmdRoot ∧
    scanRoots forestHmdRoot = .error .attributeError := ⟨rfl, rfl⟩

/-- Claim C2 amended: when a matching leaf has strictly fewer ancestors than
the required ascent depth, the search does not skip it: short by exactly one
ancestor it emits a Finding whose device is absent (the ascent lands on the
parent of a root, None); short by two or more it raises and aborts the scan. -/
theorem claim_C2_short_ancestry (data : ItemData) (anc : List Item) (d : Nat)
    (hd : getHmdRootDepth (.mk data .nil) = some d) :
    (anc.length + 1 = d →
      findHmd anc (.mk data .nil) = .ok (some ⟨none, .mk data .nil⟩)) ∧
    (anc.length + 2 ≤ d →
      findHmd anc (.mk data .nil) = .error .attributeError) := by
  constructor
  · intro hlen
    subst hlen
    rw [findHmd_leaf, hd]
    show (match ascend (some (Item.mk data .nil)) anc (anc.length + 1) with
          | .error e => (.error e : Except Err (Option ViveHMD))
          | .ok dev => .ok (some ⟨dev, Item.mk data .nil⟩)) = _
    rw [ascend_one_past]
  · intro hlen
    rw [findHmd_leaf, hd]
    show (match ascend (some (Item.mk data .nil)) anc d with
          | .error e => (.error e : Except Err (Option ViveHMD))
          | .ok dev => .ok (some ⟨dev, Item.mk data .nil⟩)) = _
    rw [ascend_err anc (.mk data .nil) d hlen]

/-- Claim C2 amended, witnessed: a "Beyond" leaf (ascent depth 2) with one
ancestor yields a Finding with an absent device; the same leaf at a root
(zero ancestors) makes the search raise. -/
theorem claim_C2_short_ancestry_witness :
    findHmd [itPlainHub] itBeyondLeaf = .ok (some ⟨none, itBeyondLeaf⟩) ∧
    findHmd [] itBeyondLeaf = .error .attributeError :=
  ⟨(claim_C2_short_ancestry (mkData devBeyondLeaf 0) [itPlainHub] 2 rfl).1 rfl,
   (claim_C2_short_ancestry (mkData devBeyondLeaf 0) [] 2 rfl).2 (by decide)⟩

theorem ascend_zero : ∀ (cur : Option Item) (anc : List Item),
    ascend cur anc 0 = .ok cur
  | none, [] => rfl
  | none, _ :: _ => rfl
  | some _, [] => rfl
  | some _, _ :: _ => rfl

theorem ascend_three (x a1 a2 a3 : Item) (rest : List Item) :
    ascend (some x) (a1 :: a2 :: a3 :: rest) 3 = .ok (some a3) := by
  show ascend (some a3) rest 0 = .ok (some a3)
  exact ascend_zero (some a3) rest

theorem ascend_two (x a1 a2 : Item) (rest : List Item) :
    ascend (some x) (a1 :: a2 :: rest) 2 = .ok (some a2) := by
  show ascend (some a2) rest 0 = .ok (some a2)
  exact ascend_zero (some a2) rest

/-- Claim C3: for a node whose descendant search yields nothing and that has
at least the required ancestors, the vid 0x0BB4 / pid 0x0309 row ascends
exactly 3 parent hops and the normalized-product row ("Beyond" or
"Index HMD", when the first row does not apply) ascends exactly 2; in both
cases the Finding pairs the ascended-to node with the matched node as
idDevice. -/
theorem claim_C3_signature_ascent (data : ItemData) (cs : ItemForest)
    (anc : List Item)
    (hchild : findHmdForest (.mk data cs :: anc) cs = .ok none) :
    ((data.device.idVendor = 0x0BB4 ∧ data.device.idProduct = 0x0309) →
      ∀ a1 a2 a3 rest, anc = a1 :: a2 :: a3 :: rest →
        findHmd anc (.mk data cs) = .ok (some ⟨some a3, .mk data cs⟩)) ∧
    (¬(data.device.idVendor = 0x0BB4 ∧ data.device.idProduct = 0x0309) →
      (data.product = "Beyond" ∨ data.product = "Index HMD") →
      ∀ a1 a2 rest, anc = a1 :: a2 :: rest →
        findHmd anc (.mk data cs) = .ok (some ⟨some a2, .mk data cs⟩)) := by
  constructor
  · intro hsig a1 a2 a3 rest hanc
    subst hanc
    have hdepth : getHmdRootDepth (.mk data cs) = some 3 := by
      simp [getHmdRootDepth, Item.deviceOf, Item.dataOf, hsig.1, hsig.2]
    rw [findHmd_eq, hchild]
    show (match getHmdRootDepth (Item.mk data cs) with
          | none => (Except.ok none : Except Err (Option ViveHMD))
          | some d =>
              match ascend (some (Item.mk data cs)) (a1 :: a2 :: a3 :: rest) d with
              | .error e => .error e
              | .ok dev => .ok (some ⟨dev, Item.mk data cs⟩)) = _
    rw [hdepth]
    show (match ascend (some (Item.mk data cs)) (a1 :: a2 :: a3 :: rest) 3 with
          | .error e => (.error e : Except Err (Option ViveHMD))
          | .ok dev => .ok (some ⟨dev, Item.mk data cs⟩)) = _
    rw [ascend_three]
  · intro hsig hprod a1 a2 rest hanc
    subst hanc
    have hdepth : getHmdRootDepth (.mk data cs) = some 2 := by
      rw [getHmdRootDepth, if_neg]
      · rw [if_pos]
        rcases hprod with hp | hp <;> simp [Item.productS, Item.dataOf, hp]
      · simpa [Item.deviceOf, Item.dataOf] using hsig
    rw [findHmd_eq, hchild]
    show (match getHmdRootDepth (Item.mk data cs) with
          | none => (Except.ok none : Except Err (Option ViveHMD))
          | some d =>
              match ascend (some (Item.mk data cs)) (a1 :: a2 :: rest) d with
              | .error e => .error e
              | .ok dev => .ok (some ⟨dev, Item.mk data cs⟩)) = _
    rw [hdepth]
    show (match ascend (some (Item.mk data cs)) (a1 :: a2 :: rest) 2 with
          | .error e => (.error e : Except Err (Option ViveHMD))
          | .ok dev => .ok (some ⟨dev, Item.mk data cs⟩)) = _
    rw [ascend_two]

/-- Claim C3, witnessed on concrete chains: the vid/pid row lands 3 hops up,
the product row lands 2 hops up, idDevice is the matched leaf. -/
theorem claim_C3_signature_ascent_witness :
    findHmd [itHubA, itHubB, itHubC] itViveLeaf =
      .ok (some ⟨some itHubC, itViveLeaf⟩) ∧
    findHmd [itHubA, itHubB] itBeyondLeaf =
      .ok (some ⟨some itHubB, itBeyondLeaf⟩) :=
  ⟨(claim_C3_signature_ascent (mkData devViveLeaf 0) .nil [itHubA, itHubB, itHubC]
      rfl).1 (by decide) itHubA itHubB itHubC [] rfl,
   (claim_C3_signature_ascent (mkData devBeyondLeaf 0) .nil [itHubA, itHubB]
      rfl).2 (by decide) (Or.inl rfl) itHubA itHubB [] rfl⟩

/-- Claim C4: for any record list, in whatever order, a successfully built
forest iterates every level's children in strictly ascending integer port
order. -/
theorem claim_C4_sorted_levels (devs : List Device) (g : ItemForest)
    (hok : buildForest devs = .ok g) : itemForestAsc g = true := by
  obtain ⟨t, ht, hmk⟩ := buildForest_ok devs g hok
  obtain ⟨_, _, hU⟩ := createDeviceTree_inv devs t ht
  exact mkForest_asc (sortForest t) 0 g hmk (sortForest_asc t hU)

/-- Claim C4, witnessed on the specification's own example (paths [2], [1],
[1,3], [1,1] supplied out of order). -/
theorem claim_C4_sorted_levels_witness : itemForestAsc forestOrder = true :=
  claim_C4_sorted_levels devsOrder forestOrder rfl

/-- Claim C5 counterexample: with two records resolving to path [1], the
earlier one is a supplied record that appears in zero Tree Nodes of the
built forest, refuting that every supplied record appears in exactly one. -/
theorem claim_C5_counterexample :
    buildForest [devDupA, devDupB] = .ok forestDup ∧
    devDupA ∈ [devDupA, devDupB] ∧
    countIF forestDup devDupA = 0 := ⟨rfl, by simp, rfl⟩

/-- Claim C5 amended: when the supplied records have pairwise distinct
resolved port paths, every record appears in exactly one Tree Node of a
successfully built forest, and that node is found by descending along the
record's own resolved path. -/
theorem claim_C5_roundtrip (devs : List Device) (g : ItemForest)
    (hnodup : (devs.map resolvedPath).Nodup)
    (hok : buildForest devs = .ok g) (d : Device) (hd : d ∈ devs) :
    countIF g d = 1 ∧
    ∃ it, lookupPathI g (resolvedPath d) = some it ∧ Item.deviceOf it = d := by
  obtain ⟨hlook, hcnt⟩ := buildForest_slots devs g hok
  have hlast := lastWith_nodup devs d hnodup hd
  refine ⟨by rw [hcnt d, if_pos hlast], ?_⟩
  have hq := hlook (resolvedPath d)
  rw [hlast] at hq
  cases hit : lookupPathI g (resolvedPath d) with
  | none => rw [hit] at hq; simp at hq
  | some it =>
      rw [hit] at hq
      simp only [Option.map_some', Option.some.injEq] at hq
      exact ⟨it, rfl, hq⟩

/-- Claim C5 amended, witnessed: a record with path [1,3] among
distinct-path records sits in exactly one node, at its own path. -/
theorem claim_C5_roundtrip_witness :
    countIF forestDistinct (mkDev 32 3 (some [1, 3]) 1 1 0 none none none) = 1 ∧
    ∃ it, lookupPathI forestDistinct [1, 3] = some it ∧
      Item.deviceOf it = mkDev 32 3 (some [1, 3]) 1 1 0 none none none :=
  claim_C5_roundtrip devsDistinct forestDistinct (by decide) rfl
    (mkDev 32 3 (some [1, 3]) 1 1 0 none none none) (by decide)

/-- Claim C10: when several records resolve to the same full path, the slot
at that path belongs to the record supplied last; it occupies exactly one
node, and every earlier, distinct record at that path occupies none. -/
theorem claim_C10_last_write_wins (devs : List Device) (g : ItemForest)
    (p : List Int) (dl : Device) (hok : buildForest devs = .ok g)
    (hlast : lastWith devs p = some dl) :
    (∃ it, lookupPathI g p = some it ∧ Item.deviceOf it = dl) ∧
    countIF g dl = 1 ∧
    (∀ d, d ∈ devs → resolvedPath d = p → d ≠ dl → countIF g d = 0) := by
  obtain ⟨hlook, hcnt⟩ := buildForest_slots devs g hok
  obtain ⟨hpath, hmem⟩ := lastWith_mem devs p dl hlast
  refine ⟨?_, ?_, ?_⟩
  · have hq := hlook p
    rw [hlast] at hq
    cases hit : lookupPathI g p with
    | none => rw [hit] at hq; simp at hq
    | some it =>
        rw [hit] at hq
        simp only [Option.map_some', Option.some.injEq] at hq
        exact ⟨it, rfl, hq⟩
  · rw [hcnt dl, hpath, if_pos hlast]
  · intro d hdmem hdp hdne
    rw [hcnt d, hdp, if_neg]
    intro hcontra
    rw [hlast] at hcontra
    simp only [Option.some.injEq] at hcontra
    exact hdne hcontra.symm

/-- Claim C10, witnessed on the duplicate-path pair: the later record owns
the single node at path [1], the earlier one appears nowhere. -/
theorem claim_C10_last_write_wins_witness :
    (∃ it, lookupPathI forestDup [1] = some it ∧ Item.deviceOf it = devDupB) ∧
    countIF forestDup devDupB = 1 ∧
    countIF forestDup devDupA = 0 :=
  ⟨(claim_C10_last_write_wins [devDupA, devDupB] forestDup [1] devDupB rfl
      rfl).1,
   (claim_C10_last_write_wins [devDupA, devDupB] forestDup [1] devDupB rfl
      rfl).2.1,
   (claim_C10_last_write_wins [devDupA, devDupB] forestDup [1] devDupB rfl
      rfl).2.2 devDupA (by simp) rfl (by decide)⟩

/-- Claim C6: the search visits children before the current node, so whenever
the descendant search of a node returns a finding, that finding is the
subtree's result even if the node itself matches, and its idDevice lies in
the children's forest. -/
theorem claim_C6_descendant_precedence (data : ItemData) (cs : ItemForest)
    (anc : List Item) (h : ViveHMD)
    (hchild : findHmdForest (.mk data cs :: anc) cs = .ok (some h)) :
    findHmd anc (.mk data cs) = .ok (some h) ∧ ItemMemF h.idDevice cs := by
  refine ⟨?_, findHmdForest_id_mem _ cs h hchild⟩
  rw [findHmd_eq, hchild]

/-- Claim C6, witnessed: a "Beyond" node whose child is itself a matching
"Beyond" leaf returns the child-triggered finding, not its own. -/
theorem claim_C6_descendant_precedence_witness :
    findHmd [itHubA] itBeyondParent = .ok (some ⟨some itHubA, itBeyondLeaf⟩) ∧
    ItemMemF itBeyondLeaf (.cons 5 itBeyondLeaf .nil) :=
  claim_C6_descendant_precedence
    (mkData (mkDev 40 2 none 0x1234 0x5678 0 (some "Beyond") none none) 0)
    (.cons 5 itBeyondLeaf .nil) [itHubA] ⟨some itHubA, itBeyondLeaf⟩ rfl

/-- Claim C7: for a Finding whose ancestor node is present, the attached
dongles are exactly the hub-expansion-reachable strict descendants of the
ancestor satisfying the dongle signature; all of them lie inside the
ancestor's subtree (anything elsewhere is excluded), and the serial accessor
maps the same list in the same order. -/
theorem claim_C7_dongle_scope (h : ViveHMD) (a : Item)
    (hdev : h.device = some a) (ds : List Item)
    (hok : getAttachedDongles h = .ok ds) :
    (∀ x, x ∈ ds ↔ (HubReach a x ∧ isDongle x = true)) ∧
    (∀ x, x ∈ ds → ItemMemF x a.childrenF) ∧
    getDongleSerials h = .ok (ds.map Item.serialS) := by
  have hds : ds = (flatItem a).filter isDongle := by
    unfold getAttachedDongles at hok
    rw [hdev] at hok
    simp only [Except.ok.injEq] at hok
    exact hok.symm
  refine ⟨?_, ?_, ?_⟩
  · intro x
    rw [hds, List.mem_filter, mem_flatItem_iff]
  · intro x hx
    rw [hds, List.mem_filter] at hx
    exact hubReach_memF a x ((mem_flatItem_iff a x).mp hx.1)
  · unfold getDongleSerials
    rw [hok]

/-- Claim C7, witnessed: a dongle under a hub child is characterized by
reachability, a dongle hidden under a non-hub child likewise (and is indeed
not collected), and the serial accessor maps the collected list. -/
theorem claim_C7_dongle_scope_witness :
    (itHiddenDongle ∈ donglesFound ↔
      (HubReach itAncestor itHiddenDongle ∧ isDongle itHiddenDongle = true)) ∧
    (itDongle2 ∈ donglesFound ↔
      (HubReach itAncestor itDongle2 ∧ isDongle itDongle2 = true)) ∧
    getDongleSerials hmdFinding = .ok (donglesFound.map Item.serialS) :=
  ⟨(claim_C7_dongle_scope hmdFinding itAncestor rfl donglesFound rfl).1
      itHiddenDongle,
   (claim_C7_dongle_scope hmdFinding itAncestor rfl donglesFound rfl).1
      itDongle2,
   (claim_C7_dongle_scope hmdFinding itAncestor rfl donglesFound rfl).2.2⟩

/-- Claim C8 counterexample: a record with an empty (malformed) port path is
not treated as a single-element path of its own port number; the builder
raises IndexError (ports[-1] on an empty tuple), so construction does not
complete for every malformed input. -/
theorem claim_C8_counterexample :
    createDeviceTree [devEmptyPath] = .error .indexError := rfl

/-- Claim C8 amended: only an absent port path falls back to the
single-element path of the record's own port number (and is accepted, the
record landing at that path); an empty port path is rejected with an
IndexError. -/
theorem claim_C8_absent_path_fallback (d : Device) (f : DForest) :
    (d.portNumbers = none →
      insertDevice f d = .ok (setDevice f d.portNumber d) ∧
      deviceAt (setDevice f d.portNumber d) [d.portNumber] = some d) ∧
    (d.portNumbers = some [] → insertDevice f d = .error .indexError) := by
  constructor
  · intro hp
    refine ⟨by simp [insertDevice, hp], ?_⟩
    rw [deviceAt_setDevice]
    simp
  · intro hp
    simp [insertDevice, hp, splitLast]

/-- Claim C8 amended, witnessed: an absent-path record lands at [7], its own
port number; the empty-path record is rejected. -/
theorem claim_C8_absent_path_fallback_witness :
    (insertDevice .nil devAbsentPath =
      .ok (setDevice .nil devAbsentPath.portNumber devAbsentPath) ∧
     deviceAt (setDevice .nil devAbsentPath.portNumber devAbsentPath)
      [devAbsentPath.portNumber] = some devAbsentPath) ∧
    insertDevice .nil devEmptyPath = .error .indexError :=
  ⟨(claim_C8_absent_path_fallback devAbsentPath .nil).1 rfl,
   (claim_C8_absent_path_fallback devEmptyPath .nil).2 rfl⟩

/-- Claim C9: node construction normalizes unavailable strings exactly once,
at construction: a missing product or manufacturer is stored as the empty
string, a missing serial number as the literal "No Serial Number", and an
available value is stored unchanged; every later read sees the stored field. -/
theorem claim_C9_normalization (dev : Device) (c : DForest) (lvl : Nat)
    (it : Item) (hok : mkItem (some dev) c lvl = .ok it) :
    (dev.product = none → Item.productS it = "") ∧
    (∀ s, dev.product = some s → Item.productS it = s) ∧
    (dev.manufacturer = none → Item.vendorS it = "") ∧
    (∀ s, dev.manufacturer = some s → Item.vendorS it = s) ∧
    (dev.serialNumber = none → Item.serialS it = "No Serial Number") ∧
    (∀ s, dev.serialNumber = some s → Item.serialS it = s) := by
  obtain ⟨d2, cs, hd2, hcs, hit⟩ := mkItem_ok (some dev) c lvl it hok
  simp only [Option.some.injEq] at hd2
  subst hd2
  subst hit
  refine ⟨?_, ?_, ?_, ?_, ?_, ?_⟩ <;>
    first
      | (intro h
         simp [Item.productS, Item.vendorS, Item.serialS, Item.dataOf, mkData, h])
      | (intro s h
         simp [Item.productS, Item.vendorS, Item.serialS, Item.dataOf, mkData, h])

/-- Claim C9, witnessed: a record with no product, manufacturer "HTC" and no
serial yields a node with product "", vendor "HTC" and serial
"No Serial Number". -/
theorem claim_C9_normalization_witness :
    Item.productS itPartial = "" ∧
    Item.vendorS itPartial = "HTC" ∧
    Item.serialS itPartial = "No Serial Number" :=
  ⟨(claim_C9_normalization devPartial .nil 0 itPartial rfl).1 rfl,
   (claim_C9_normalization devPartial .nil 0 itPartial rfl).2.2.2.1 "HTC" rfl,
   (claim_C9_normalization devPartial .nil 0 itPartial rfl).2.2.2.2.1 rfl⟩
